import Mathlib

/-
  Verification development for the `ocrpdfmpn` repository (src/ocrpdfmpn.py).

  The strings of the Python program are modelled as `List Char`; case folding
  uses `Char.toLower` (ASCII), matching Python's behaviour on the ASCII inputs
  the program is designed for (part numbers, datasheet text).

  The pipeline modelled here:
  * `GetPDFResponse` (lines 19-27): one HTTP GET per URL with `timeout=10`,
    errors caught, failed URLs yield no map entry.
  * `GetPDFText` (lines 29-46): chunks the URL list in groups of 100,
    fetches every element of every chunk, and writes `pdfData[pdf] = text`
    for each successful fetch+parse.
  * `SET_DESC` (lines 70-103): per-row matcher.  Missing map entry gives
    status "May be Broken"; a digital text of length <= 100 is superseded by
    an OCR refetch (line 80, `requests.get(pdf_url)` with NO timeout and no
    try/except); then exact case-insensitive regex search, then
    `difflib.get_close_matches(part, re.split('[ \n]', values), n=1, cutoff=0.65)`,
    else "Not Found".
-/

/-- Python `\w` on ASCII text: letters, digits and underscore. -/
def isWordChar (c : Char) : Bool :=
  c.isAlphanum || c = '_'

/-- Characters removed by Python `str.strip()`. -/
def isPyWS (c : Char) : Bool :=
  c = ' ' || c = '\t' || c = '\n' || c = '\r' || c = '\x0b' || c = '\x0c'

/-- ASCII lowercasing of a string, the case folding used by `re.IGNORECASE`
on the ASCII inputs in scope. -/
def lower (l : List Char) : List Char :=
  l.map Char.toLower

/-- Case-insensitive "the pattern is a prefix of the text here" test. -/
def ciPref (p s : List Char) : Bool :=
  (lower p).isPrefixOf (lower s)

/-- Leftmost index at which `re.search(re.escape(p), t, re.IGNORECASE)`
matches (lines 85-88): first position whose suffix starts with `p`
case-insensitively.  `none` when the pattern occurs nowhere. -/
def findCI (p t : List Char) : Option Nat :=
  if ciPref p t then some 0
  else
    match t with
    | [] => none
    | _ :: ts => (findCI p ts).map (· + 1)

/-- Tokenisation `re.split('[ \n]', values)` (line 96): split at every single
space or newline, keeping empty fragments. -/
def splitTok : List Char → List (List Char)
  | [] => [[]]
  | c :: cs =>
    if c = ' ' ∨ c = '\n' then [] :: splitTok cs
    else
      match splitTok cs with
      | [] => [[c]]
      | tok :: rest => (c :: tok) :: rest

/-- Length of the common prefix of two strings (a diagonal run of equal
characters in `difflib.SequenceMatcher.find_longest_match`). -/
def cpl : List Char → List Char → Nat
  | a :: as, b :: bs => if a = b then cpl as bs + 1 else 0
  | _, _ => 0

/-- All candidate blocks `(i, j, run length starting at (i, j))` of
`find_longest_match`, listed in lexicographic `(i, j)` order — the order in
which the difflib dynamic programming pass first reaches each block. -/
def blockCands (a b : List Char) : List (Nat × Nat × Nat) :=
  (List.range a.length).flatMap fun i =>
    (List.range b.length).map fun j => (i, j, cpl (a.drop i) (b.drop j))

/-- `find_longest_match` over whole strings (no junk, no autojunk: autojunk
only fires when the second sequence — the part number — has length >= 200):
the longest matching block, earliest in `a` then earliest in `b`.  Returns
`(0, 0, 0)` when there is no non-empty common block. -/
def bestBlock (a b : List Char) : Nat × Nat × Nat :=
  (blockCands a b).foldl (fun best c => if best.2.2 < c.2.2 then c else best) (0, 0, 0)

/-- Total size of the matching blocks of `SequenceMatcher.get_matching_blocks`:
recursively take the best block and recurse on the parts left and right of it.
`fuel` only bounds the recursion depth; `fuel = |a| + |b|` always suffices
because each recursive call strictly decreases `|a| + |b|`. -/
def msum : Nat → List Char → List Char → Nat
  | 0, _, _ => 0
  | fuel + 1, a, b =>
    let (i, j, k) := bestBlock a b
    if k = 0 then 0
    else
      msum fuel (a.take i) (b.take j) + k + msum fuel (a.drop (i + k)) (b.drop (j + k))

/-- Number of matching characters `M` used by `SequenceMatcher.ratio()`,
with first sequence `a` (a token) and second sequence `b` (the part). -/
def mtotal (a b : List Char) : Nat :=
  msum (a.length + b.length) a b

/-- Numerator of `SequenceMatcher(None, t, p).ratio() = 2*M/(|t|+|p|)`
(`1/1` when both strings are empty, as in `difflib._calculate_ratio`). -/
def scoreN (t p : List Char) : Nat :=
  if t.length + p.length = 0 then 1 else 2 * mtotal t p

/-- Denominator of `SequenceMatcher(None, t, p).ratio()`; always positive. -/
def scoreD (t p : List Char) : Nat :=
  if t.length + p.length = 0 then 1 else t.length + p.length

/-- `SequenceMatcher(None, t, p).ratio()` as an exact rational.  For the
short strings in scope the float comparisons performed by difflib agree
with the exact rational ones (the rationals involved have denominators far
too small for double rounding to cross a comparison). -/
def score (t p : List Char) : ℚ :=
  (scoreN t p : ℚ) / (scoreD t p : ℚ)

/-- One step of `difflib.get_close_matches(part, tokens, n=1, cutoff=0.65)`:
keep a running best among tokens whose ratio reaches the cutoff.  With `n=1`
difflib takes `max` over the pairs `(ratio, token)`, so a later token replaces
the current best exactly when its pair is strictly greater: strictly better
ratio, or equal ratio and lexicographically greater token.  The ratio
comparisons are written here as the equivalent cross-multiplied integer
comparisons (`ratio >= 0.65` is `13*D <= 20*N`, `ratio c < ratio t` is
`Nc*Dt < Nt*Dc`); the bridge lemmas below restate them over `score`. -/
def cmStep (p : List Char) (cur : Option (List Char)) (t : List Char) : Option (List Char) :=
  if 13 * scoreD t p ≤ 20 * scoreN t p then
    match cur with
    | none => some t
    | some c =>
      if scoreN c p * scoreD t p < scoreN t p * scoreD c p ∨
          (scoreN c p * scoreD t p = scoreN t p * scoreD c p ∧ c < t) then some t
      else some c
  else cur

/-- `difflib.get_close_matches(part, tokens, n=1, cutoff=0.65)` (line 96),
returning the single best token, or `none` when no token reaches the cutoff. -/
def closeMatch (p : List Char) (toks : List (List Char)) : Option (List Char) :=
  toks.foldl (cmStep p) none

/-- Is the character at index `i` of `t` a word character (out of range
counts as a non-word character)? -/
def wAt (t : List Char) (i : Nat) : Bool :=
  match t.drop i with
  | c :: _ => isWordChar c
  | [] => false

/-- Python regex `\b` at position `i` of `t`: the word-ness changes between
the character before `i` and the character at `i`. -/
def bAt (t : List Char) (i : Nat) : Bool :=
  (if i = 0 then false else wAt t (i - 1)) != wAt t i

/-- Length of the maximal run of word characters starting at index `i`. -/
def runAt (t : List Char) (i : Nat) : Nat :=
  ((t.drop i).takeWhile isWordChar).length

/-- Case-insensitive match of the part literally at index `i`. -/
def ciAt (p t : List Char) (i : Nat) : Bool :=
  ciPref p (t.drop i)

/-- Backtracking of the second `\w*` of the pattern `\b\w*P\w*\b`: starting
from the greedy length and shrinking, return the first end position `e0 + b`
that sits on a word boundary. -/
def tryB (t : List Char) (e0 : Nat) : Nat → Option Nat
  | 0 => if bAt t e0 then some e0 else none
  | b + 1 => if bAt t (e0 + b + 1) then some (e0 + b + 1) else tryB t e0 b

/-- After the first `\w*` has consumed up to position `a`: match the escaped
part case-insensitively at `a`, then run the second `\w*` and the final
boundary. -/
def tryTail (p t : List Char) (a : Nat) : Option Nat :=
  if ciAt p t a then tryB t (a + p.length) (runAt t (a + p.length)) else none

/-- Backtracking of the first `\w*`: greedy, so the star length `s` is tried
from the maximal run length downwards. -/
def tryStars (p t : List Char) (i : Nat) : Nat → Option Nat
  | 0 => tryTail p t i
  | s + 1 =>
    match tryTail p t (i + s + 1) with
    | some e => some e
    | none => tryStars p t i s

/-- Python regex match of `\b\w*P\w*\b` (with `P = re.escape(part)`,
`re.IGNORECASE`) anchored at position `i`: the end position of the match the
backtracking engine finds, or `none`. -/
def matchAt (p t : List Char) (i : Nat) : Option Nat :=
  if bAt t i then tryStars p t i (runAt t i) else none

/-- Scanning loop of `re.findall` (line 90): try each position left to right,
record the match and continue at its end (one past it for an empty match).
`fuel = |t| + 2` suffices since every step advances the position. -/
def simScan (p t : List Char) : Nat → Nat → List (List Char)
  | 0, _ => []
  | fuel + 1, pos =>
    if pos > t.length then []
    else
      match matchAt p t pos with
      | some e => ((t.drop pos).take (e - pos)) :: simScan p t fuel (if pos < e then e else pos + 1)
      | none => simScan p t fuel (pos + 1)

/-- `re.findall(r'\b\w*' + re.escape(part) + r'\w*\b', values, re.IGNORECASE)`
(line 90): the raw (unstripped) matches in scan order. -/
def simRaw (p t : List Char) : List (List Char) :=
  simScan p t (t.length + 2) 0

/-- Python `str.strip()`. -/
def stripWS (l : List Char) : List Char :=
  ((l.dropWhile isPyWS).reverse.dropWhile isPyWS).reverse

/-- Deduplication with first-occurrence order: the canonical enumeration of
the Python set built at lines 89-91 (Python's own iteration order over the
set is an arbitrary but fixed-per-process hash order; every property proved
below is insensitive to the enumeration order). -/
def dedupFO (l : List (List Char)) : List (List Char) :=
  l.foldl (fun acc x => if acc.contains x then acc else acc ++ [x]) []

/-- `'|'.join(...)` (line 93). -/
def joinBar (l : List (List Char)) : List Char :=
  List.intercalate ['|'] l

/-- The SIMILARS value of the Exact branch (lines 89-93): the deduplicated
stripped matches joined with `'|'` when the set is non-empty, unset
otherwise. -/
def similarsOf (p t : List Char) : Option (List Char) :=
  let s := dedupFO ((simRaw p t).map stripWS)
  if s = [] then none else some (joinBar s)

/-- A per-row result: `data['STATUS']`, `data['EQUIVALENT']`,
`data['SIMILARS']` at one index.  `none` models a cell left at `None`. -/
structure Outcome where
  status : String
  equivalent : Option (List Char)
  similars : Option (List Char)
deriving DecidableEq

/-- The matcher of `SET_DESC` on resolved text (lines 84-103): exact
case-insensitive search, then the difflib close-match fallback, else
"Not Found". -/
def matchOutcome (p t : List Char) : Outcome :=
  match findCI p t with
  | some i =>
    { status := "Exact"
      equivalent := some ((t.drop i).take p.length)
      similars := similarsOf p t }
  | none =>
    match closeMatch p (splitTok t) with
    | some b => { status := "Includes or Missed Suffixes", equivalent := some b, similars := none }
    | none => { status := "Not Found", equivalent := none, similars := none }

/-- One run of `SET_DESC` (lines 70-103) for a row with part `p`.
`entry` is `pdf_data.get(pdf_url)`; `ofr` is the result of the OCR fallback
path (line 80-81): `some o` when the refetch succeeds and OCR returns text
`o` (`ocr_text_from_pdf` turns its own internal errors into `""`), and
`none` when the unguarded `requests.get(pdf_url)` of line 80 (no timeout, no
try/except) or the `easyocr.Reader` construction raises — in that case the
exception escapes `SET_DESC`, is swallowed by the unconsumed
`executor.map`, and the row keeps `STATUS = None`: no outcome. -/
def setDescRun (p : List Char) (entry : Option (List Char)) (ofr : Option (List Char)) :
    Option Outcome :=
  match entry with
  | none => some { status := "May be Broken", equivalent := none, similars := none }
  | some v =>
    if v.length ≤ 100 then
      match ofr with
      | none => none
      | some o => some (matchOutcome p o)
    else some (matchOutcome p v)

lemma ciPref_nil_left (t : List Char) : ciPref [] t = true := by
  simp [ciPref, lower, List.isPrefixOf]

lemma findCI_nil_left (t : List Char) : findCI [] t = some 0 := by
  unfold findCI
  simp [ciPref_nil_left]

lemma findCI_first (p : List Char) :
    ∀ t : List Char, (∃ i, ciPref p (t.drop i) = true) →
      ∃ j, findCI p t = some j ∧ ciPref p (t.drop j) = true ∧
        ∀ k, k < j → ciPref p (t.drop k) = false := by
  intro t
  induction t with
  | nil =>
    rintro ⟨i, hi⟩
    rw [List.drop_nil] at hi
    refine ⟨0, ?_, by simpa using hi, fun k hk => by omega⟩
    unfold findCI
    simp [hi]
  | cons c ts ih =>
    rintro ⟨i, hi⟩
    by_cases h0 : ciPref p (c :: ts) = true
    · refine ⟨0, ?_, by simpa using h0, fun k hk => by omega⟩
      unfold findCI
      simp [h0]
    · have hb : ciPref p (c :: ts) = false := by
        simpa using h0
      cases i with
      | zero =>
        rw [List.drop_zero] at hi
        exact absurd hi h0
      | succ i' =>
        rw [List.drop_succ_cons] at hi
        obtain ⟨j, hf, hp, hm⟩ := ih ⟨i', hi⟩
        refine ⟨j + 1, ?_, by simpa using hp, ?_⟩
        · unfold findCI
          simp [hb, hf]
        · intro k hk
          cases k with
          | zero => simpa using hb
          | succ k' =>
            rw [List.drop_succ_cons]
            exact hm k' (by omega)

lemma lower_take_of_ciPref (p s : List Char) (h : ciPref p s = true) :
    lower (s.take p.length) = lower p := by
  unfold ciPref at h
  have hpre : lower p <+: lower s := List.isPrefixOf_iff_prefix.mp h
  have heq : lower p = (lower s).take (lower p).length := List.prefix_iff_eq_take.mp hpre
  unfold lower at heq ⊢
  rw [List.length_map, ← List.map_take] at heq
  exact heq.symm

/-- C1: whenever the resolved text contains the identifier verbatim under
case-insensitive comparison, the matcher returns status "Exact" and the
EQUIVALENT cell is the matched substring taken from the text itself at the
first match position (original casing, case-insensitively equal to the
identifier), the positions before it matching nowhere. -/
theorem c1_exact_original_casing (p t : List Char)
    (h : ∃ i, ciPref p (t.drop i) = true) :
    (matchOutcome p t).status = "Exact" ∧
    ∃ j, (matchOutcome p t).equivalent = some ((t.drop j).take p.length) ∧
      lower ((t.drop j).take p.length) = lower p ∧
      ∀ k, k < j → ciPref p (t.drop k) = false := by
  obtain ⟨j, hf, hp, hm⟩ := findCI_first p t h
  refine ⟨by simp [matchOutcome, hf], j, by simp [matchOutcome, hf], ?_, hm⟩
  exact lower_take_of_ciPref p (t.drop j) hp

/-- C1 witness: identifier "ab" occurs case-insensitively in "xAb"; the
returned equivalent keeps the text's casing. -/
theorem c1_witness :
    (∃ i, ciPref ['a', 'b'] ((['x', 'A', 'b'] : List Char).drop i) = true) ∧
    ((matchOutcome ['a', 'b'] ['x', 'A', 'b']).status = "Exact" ∧
      ∃ j, (matchOutcome ['a', 'b'] ['x', 'A', 'b']).equivalent =
          some (((['x', 'A', 'b'] : List Char).drop j).take (['a', 'b'] : List Char).length) ∧
        lower (((['x', 'A', 'b'] : List Char).drop j).take (['a', 'b'] : List Char).length) =
          lower ['a', 'b'] ∧
        ∀ k, k < j → ciPref ['a', 'b'] ((['x', 'A', 'b'] : List Char).drop k) = false) :=
  ⟨⟨1, by decide⟩, c1_exact_original_casing ['a', 'b'] ['x', 'A', 'b'] ⟨1, by decide⟩⟩

/-- C3: a request whose location has no entry in the extraction map gets
status "May be Broken" with EQUIVALENT and SIMILARS unset, whatever the
identifier (and whatever the OCR path would have produced). -/
theorem c3_unavailable (p : List Char) (ofr : Option (List Char)) :
    setDescRun p none ofr =
      some { status := "May be Broken", equivalent := none, similars := none } := rfl

/-- C4: for a location with a digital extraction result `v`, the matcher
input is the OCR output exactly when `v` has length at most 100, and `v`
itself otherwise — the conditional of lines 79-82. -/
theorem c4_ocr_trigger (p v o : List Char) :
    setDescRun p (some v) (some o) =
      some (matchOutcome p (if v.length ≤ 100 then o else v)) := by
  unfold setDescRun
  by_cases h : v.length ≤ 100 <;> simp [h]

/-- C9: the matcher is a pure function of the (identifier, text) pair: two
invocations on identical inputs give identical outcomes, including the
EQUIVALENT and SIMILARS fields. -/
theorem c9_determinism (p₁ t₁ p₂ t₂ : List Char) (hp : p₁ = p₂) (ht : t₁ = t₂) :
    matchOutcome p₁ t₁ = matchOutcome p₂ t₂ ∧
    (matchOutcome p₁ t₁).equivalent = (matchOutcome p₂ t₂).equivalent ∧
    (matchOutcome p₁ t₁).similars = (matchOutcome p₂ t₂).similars := by
  subst hp
  subst ht
  exact ⟨rfl, rfl, rfl⟩

/-- C9 witness: the determinism theorem applied at a concrete pair. -/
theorem c9_witness :
    (['a'] : List Char) = ['a'] ∧
    (matchOutcome ['a'] ['b'] = matchOutcome ['a'] ['b'] ∧
      (matchOutcome ['a'] ['b']).equivalent = (matchOutcome ['a'] ['b']).equivalent ∧
      (matchOutcome ['a'] ['b']).similars = (matchOutcome ['a'] ['b']).similars) :=
  ⟨rfl, c9_determinism ['a'] ['b'] ['a'] ['b'] rfl rfl⟩

lemma matchOutcome_nil_part (t : List Char) :
    (matchOutcome [] t).status = "Exact" ∧ (matchOutcome [] t).equivalent = some [] := by
  have h := findCI_nil_left t
  constructor <;> simp [matchOutcome, h]

/-- C10: when the row's location has an entry and the identifier is the empty
string, any completed run of the matcher reports "Exact" with the empty
string as equivalent: the case-insensitive search for the empty pattern
succeeds at position 0 of any resolved text. -/
theorem c10_empty_part (v : List Char) (ofr : Option (List Char)) (out : Outcome)
    (h : setDescRun [] (some v) ofr = some out) :
    out.status = "Exact" ∧ out.equivalent = some [] := by
  unfold setDescRun at h
  by_cases hv : v.length ≤ 100
  · simp only [hv, if_true] at h
    cases ofr with
    | none => simp at h
    | some o =>
      simp only [Option.some.injEq] at h
      subst h
      exact matchOutcome_nil_part o
  · simp only [hv, if_false] at h
    simp only [Option.some.injEq] at h
    subst h
    exact matchOutcome_nil_part v

/-- C10 witness: empty identifier against the short digital text "x" whose
OCR replacement is the empty text. -/
theorem c10_witness :
    setDescRun [] (some ['x']) (some []) =
      some { status := "Exact", equivalent := some ([] : List Char), similars := none } ∧
    ({ status := "Exact", equivalent := some ([] : List Char), similars := none } : Outcome).status
        = "Exact" ∧
    ({ status := "Exact", equivalent := some ([] : List Char), similars := none } : Outcome).equivalent
        = some [] :=
  ⟨by decide,
    (c10_empty_part ['x'] (some []) _ (by decide)).1,
    (c10_empty_part ['x'] (some []) _ (by decide)).2⟩

lemma matchOutcome_status_cases (p t : List Char) :
    (matchOutcome p t).status = "Exact" ∨
    (matchOutcome p t).status = "Includes or Missed Suffixes" ∨
    (matchOutcome p t).status = "Not Found" := by
  unfold matchOutcome
  rcases h : findCI p t with _ | i
  · rcases h2 : closeMatch p (splitTok t) with _ | b <;> simp [h, h2]
  · simp [h]

/-- C6 counterexample: a row whose location is in the map with a short
digital text, and whose unguarded OCR refetch (line 80) raises, produces NO
outcome at all — `SET_DESC` dies before assigning STATUS and the exception
is swallowed by the unconsumed `executor.map`, leaving the row's STATUS cell
at `None`, which is not one of the four labels. -/
theorem c6_counterexample : setDescRun ['X'] (some ['a', 'b']) none = none := by decide

/-- C6 amended: every row whose processing completes (the OCR path, when
taken, returns instead of raising) yields exactly one outcome whose status
is one of the four labels; but a row with a digital text of length at most
100 whose OCR refetch raises is left with no status. -/
theorem c6_amended_statuses :
    (∀ p e t, ∃ out, setDescRun p e (some t) = some out ∧
      (out.status = "Exact" ∨ out.status = "Includes or Missed Suffixes" ∨
        out.status = "Not Found" ∨ out.status = "May be Broken")) ∧
    (∀ (p v : List Char), v.length ≤ 100 → setDescRun p (some v) none = none) := by
  constructor
  · intro p e t
    cases e with
    | none => exact ⟨_, rfl, Or.inr (Or.inr (Or.inr rfl))⟩
    | some v =>
      by_cases hv : v.length ≤ 100
      · refine ⟨matchOutcome p t, by simp [setDescRun, hv], ?_⟩
        rcases matchOutcome_status_cases p t with h | h | h
        · exact Or.inl h
        · exact Or.inr (Or.inl h)
        · exact Or.inr (Or.inr (Or.inl h))
      · refine ⟨matchOutcome p v, by simp [setDescRun, hv], ?_⟩
        rcases matchOutcome_status_cases p v with h | h | h
        · exact Or.inl h
        · exact Or.inr (Or.inl h)
        · exact Or.inr (Or.inr (Or.inl h))
  · intro p v hv
    simp [setDescRun, hv]

/-- C6 witness: the amended theorem applied at a concrete short text. -/
theorem c6_witness :
    (['a'] : List Char).length ≤ 100 ∧ setDescRun ['X'] (some ['a']) none = none :=
  ⟨by decide, c6_amended_statuses.2 ['X'] ['a'] (by decide)⟩

/-- Chunking of the URL list, `[pdfs[i:i+100] for i in range(0, len(pdfs), 100)]`
(line 32).  `fuel` only bounds the recursion depth; `fuel = |l|` always
suffices since every step consumes at least one element. -/
def chunkF : Nat → List String → List (List String)
  | 0, _ => []
  | fuel + 1, l =>
    match l with
    | [] => []
    | x :: xs => (x :: xs.take 99) :: chunkF fuel (xs.drop 99)

/-- The chunk list `[pdfs[0:100], pdfs[100:200], ...]` of `GetPDFText`. -/
def chunk100 (l : List String) : List (List String) :=
  chunkF l.length l

/-- The sequence of URLs passed to `GetPDFResponse`, one call per element of
every chunk (lines 34-36): `main` passes `data['PDF'].tolist()` — the raw
per-row column, duplicates included (line 121). -/
def fetchSequence (pdfs : List String) : List String :=
  (chunk100 pdfs).flatten

lemma chunkF_flatten : ∀ (n : Nat) (l : List String), l.length ≤ n → (chunkF n l).flatten = l := by
  intro n
  induction n with
  | zero =>
    intro l hl
    have : l = [] := List.eq_nil_of_length_eq_zero (Nat.le_zero.mp hl)
    subst this
    rfl
  | succ n ih =>
    intro l hl
    cases l with
    | nil => rfl
    | cons x xs =>
      show ((x :: xs.take 99) :: chunkF n (xs.drop 99)).flatten = x :: xs
      rw [List.flatten_cons]
      rw [ih (xs.drop 99) (by simp [List.length_drop]; simp at hl; omega)]
      simp [List.take_append_drop]

lemma fetchSequence_eq (pdfs : List String) : fetchSequence pdfs = pdfs :=
  chunkF_flatten pdfs.length pdfs (Nat.le_refl _)

/-- One dictionary write of `GetPDFText` (line 42): `pdfData[pdf] = text`,
performed only when fetch and parse succeed for that occurrence.  `g`
abstracts "fetch + parse this URL", fixed across occurrences within a run. -/
def buildStep (g : String → Option (List Char)) (m : String → Option (List Char))
    (u : String) : String → Option (List Char) :=
  match g u with
  | some txt => fun q => if q = u then some txt else m q
  | none => m

/-- The location→text dictionary `pdfData` built by `GetPDFText` over the
whole (chunked, duplicate-preserving) URL sequence. -/
def buildMap (g : String → Option (List Char)) (pdfs : List String) :
    String → Option (List Char) :=
  (fetchSequence pdfs).foldl (buildStep g) fun _ => none

lemma buildMap_fold (g : String → Option (List Char)) :
    ∀ (l : List String) (m : String → Option (List Char)) (url : String),
      (l.foldl (buildStep g) m) url = if url ∈ l ∧ (g url).isSome then g url else m url := by
  intro l
  induction l with
  | nil => intro m url; simp
  | cons u us ih =>
    intro m url
    rw [List.foldl_cons, ih]
    by_cases hmem : url ∈ us ∧ (g url).isSome
    · simp [hmem, List.mem_cons, hmem.1]
    · rw [if_neg hmem]
      by_cases hu : url = u
      · subst hu
        rcases hg : g url with _ | txt
        · simp [buildStep, hg]
        · simp [buildStep, hg]
      · have hstep : buildStep g m u url = m url := by
          rcases hg : g u with _ | txt
          · simp [buildStep, hg]
          · simp [buildStep, hg, hu]
        rw [hstep]
        have : ¬(url ∈ u :: us ∧ (g url).isSome) := by
          rintro ⟨hin, hs⟩
          rcases List.mem_cons.mp hin with h | h
          · exact hu h
          · exact hmem ⟨h, hs⟩
        rw [if_neg this]

lemma buildMap_lookup (g : String → Option (List Char)) (pdfs : List String) (url : String) :
    buildMap g pdfs url = if url ∈ pdfs ∧ (g url).isSome then g url else none := by
  unfold buildMap
  rw [buildMap_fold, fetchSequence_eq]

/-- C5 counterexample: two rows referencing the same location make
`GetPDFText` fetch that location twice — `main` passes the raw column, so
the fetch sequence for `["u", "u"]` contains "u" twice, not at most once. -/
theorem c5_counterexample : ¬ (fetchSequence ["u", "u"]).count "u" ≤ 1 := by decide

/-- C5 amended: each location is fetched once per input-row occurrence
(duplicate rows cause duplicate fetches), while the extraction map still
holds at most one entry per unique location: its lookup is determined by the
location's own fetch/parse result alone, however many rows reference it. -/
theorem c5_amended :
    (∀ (pdfs : List String) (url : String),
      (fetchSequence pdfs).count url = pdfs.count url) ∧
    (∀ (g : String → Option (List Char)) (pdfs : List String) (url : String),
      buildMap g pdfs url = if url ∈ pdfs ∧ (g url).isSome then g url else none) := by
  refine ⟨fun pdfs url => ?_, buildMap_lookup⟩
  rw [fetchSequence_eq]

/-- One HTTP GET of the program, with the timeout it was issued with. -/
structure HttpGet where
  url : String
  timeoutSecs : Option Nat
deriving DecidableEq

/-- The GETs of the bulk fetch phase: `requests.get(pdf, timeout=10)`
(line 22) for every element of every chunk. -/
def bulkGets (pdfs : List String) : List HttpGet :=
  (fetchSequence pdfs).map fun u => { url := u, timeoutSecs := some 10 }

/-- The GET of the OCR fallback (line 80): `requests.get(pdf_url)` — issued
with NO timeout, exactly when the row's map entry exists and is short. -/
def ocrGets (entry : Option (List Char)) (u : String) : List HttpGet :=
  match entry with
  | some v => if v.length ≤ 100 then [{ url := u, timeoutSecs := none }] else []
  | none => []

/-- All GETs issued against document locations on behalf of one row with
location `u`, in a run whose input URL column is `pdfs`. -/
def rowGets (g : String → Option (List Char)) (pdfs : List String) (u : String) : List HttpGet :=
  bulkGets pdfs ++ ocrGets (buildMap g pdfs u) u

/-- C8 counterexample: in a run where location "u" resolves to a 1-character
digital text, the OCR-fallback GET against "u" is issued without any
timeout — so not every GET against a document location carries the
10-second timeout. -/
theorem c8_counterexample :
    ({ url := "u", timeoutSecs := none } : HttpGet) ∈
        rowGets (fun x => if x = "u" then some ['a'] else none) ["u"] "u" ∧
    ({ url := "u", timeoutSecs := none } : HttpGet).timeoutSecs ≠ some 10 := by
  constructor <;> decide

/-- C8 amended: every bulk-phase GET carries the 10-second timeout, and a
location whose fetch or parse fails is simply absent from the success map;
but the OCR-fallback refetch is issued with no timeout at all (and, per C6,
unguarded). -/
theorem c8_amended :
    (∀ (pdfs : List String) (h : HttpGet), h ∈ bulkGets pdfs → h.timeoutSecs = some 10) ∧
    (∀ (e : Option (List Char)) (u : String) (h : HttpGet),
      h ∈ ocrGets e u → h.timeoutSecs = none) ∧
    (∀ (g : String → Option (List Char)) (pdfs : List String) (url : String),
      g url = none → buildMap g pdfs url = none) := by
  refine ⟨?_, ?_, ?_⟩
  · intro pdfs h hmem
    obtain ⟨u, _, rfl⟩ := List.mem_map.mp hmem
    rfl
  · intro e u h hmem
    cases e with
    | none => simp [ocrGets] at hmem
    | some v =>
      by_cases hv : v.length ≤ 100
      · simp [ocrGets, hv] at hmem
        subst hmem
        rfl
      · simp [ocrGets, hv] at hmem
  · intro g pdfs url hg
    rw [buildMap_lookup]
    simp [hg]

/-- C8 witness: the amended theorem applied at concrete GETs and a concrete
failing fetch. -/
theorem c8_witness :
    ({ url := "u", timeoutSecs := some 10 } : HttpGet).timeoutSecs = some 10 ∧
    ({ url := "u", timeoutSecs := none } : HttpGet).timeoutSecs = none ∧
    buildMap (fun _ => none) ["u"] "u" = none :=
  ⟨c8_amended.1 ["u"] { url := "u", timeoutSecs := some 10 } (by decide),
    c8_amended.2.1 (some ['a']) "u" { url := "u", timeoutSecs := none } (by decide),
    c8_amended.2.2 (fun _ => none) ["u"] "u" rfl⟩

/-- The order difflib's `max` over `(ratio, token)` pairs induces: `x` is no
better than `b` when its ratio is smaller, or the ratios are equal and `x`
is lexicographically at most `b`. -/
def tokLE (p x b : List Char) : Prop :=
  score x p < score b p ∨ (score x p = score b p ∧ (x < b ∨ x = b))

lemma tokLE_trans (p a b c : List Char) (h1 : tokLE p a b) (h2 : tokLE p b c) :
    tokLE p a c := by
  rcases h1 with hs1 | ⟨he1, hl1⟩
  · rcases h2 with hs2 | ⟨he2, _⟩
    · exact Or.inl (lt_trans hs1 hs2)
    · exact Or.inl (lt_of_lt_of_eq hs1 he2)
  · rcases h2 with hs2 | ⟨he2, hl2⟩
    · exact Or.inl (lt_of_eq_of_lt he1 hs2)
    · refine Or.inr ⟨he1.trans he2, ?_⟩
      rcases hl1 with hlt1 | heq1
      · rcases hl2 with hlt2 | heq2
        · exact Or.inl (lt_trans hlt1 hlt2)
        · exact Or.inl (lt_of_lt_of_eq hlt1 heq2)
      · rcases hl2 with hlt2 | heq2
        · exact Or.inl (lt_of_eq_of_lt heq1 hlt2)
        · exact Or.inr (heq1.trans heq2)

lemma tokLE_of_not_replace (p t c : List Char)
    (h : ¬ (score c p < score t p ∨ (score c p = score t p ∧ c < t))) : tokLE p t c := by
  push_neg at h
  obtain ⟨h1, h2⟩ := h
  rcases lt_or_eq_of_le h1 with hl | he
  · exact Or.inl hl
  · refine Or.inr ⟨he, ?_⟩
    rcases lt_or_eq_of_le (h2 he.symm) with hx | hx
    · exact Or.inl hx
    · exact Or.inr hx

lemma scoreD_pos (t p : List Char) : 0 < scoreD t p := by
  unfold scoreD
  by_cases h : t.length + p.length = 0 <;> simp [h]
  omega

lemma scoreD_cast_pos (t p : List Char) : (0 : ℚ) < (scoreD t p : ℚ) := by
  exact_mod_cast scoreD_pos t p

lemma score_cutoff_iff (t p : List Char) :
    score t p ≥ 13 / 20 ↔ 13 * scoreD t p ≤ 20 * scoreN t p := by
  unfold score
  rw [ge_iff_le, div_le_div_iff₀ (by norm_num : (0 : ℚ) < 20) (scoreD_cast_pos t p),
    mul_comm ((scoreN t p : ℚ)) 20]
  constructor <;> intro h <;> exact_mod_cast h

lemma score_lt_iff (c t p : List Char) :
    score c p < score t p ↔ scoreN c p * scoreD t p < scoreN t p * scoreD c p := by
  unfold score
  rw [div_lt_div_iff₀ (scoreD_cast_pos c p) (scoreD_cast_pos t p)]
  constructor <;> intro h <;> exact_mod_cast h

lemma score_eq_iff (c t p : List Char) :
    score c p = score t p ↔ scoreN c p * scoreD t p = scoreN t p * scoreD c p := by
  unfold score
  rw [div_eq_div_iff (ne_of_gt (scoreD_cast_pos c p)) (ne_of_gt (scoreD_cast_pos t p))]
  constructor <;> intro h <;> exact_mod_cast h

lemma cmStep_not (p : List Char) (cur : Option (List Char)) (t : List Char)
    (h : ¬ score t p ≥ 13 / 20) : cmStep p cur t = cur := by
  unfold cmStep
  rw [if_neg fun hc => h ((score_cutoff_iff t p).mpr hc)]

lemma cmStep_none (p t : List Char) (h : score t p ≥ 13 / 20) :
    cmStep p none t = some t := by
  unfold cmStep
  rw [if_pos ((score_cutoff_iff t p).mp h)]

lemma cmStep_some (p c t : List Char) (h : score t p ≥ 13 / 20) :
    cmStep p (some c) t =
      if score c p < score t p ∨ (score c p = score t p ∧ c < t) then some t else some c := by
  unfold cmStep
  rw [if_pos ((score_cutoff_iff t p).mp h)]
  exact if_congr
    (or_congr (score_lt_iff c t p).symm (and_congr (score_eq_iff c t p).symm Iff.rfl)) rfl rfl

lemma closeMatch_fold (p : List Char) :
    ∀ (toks : List (List Char)) (cur : Option (List Char)),
      (toks.foldl (cmStep p) cur = none → cur = none ∧ ∀ x ∈ toks, ¬ score x p ≥ 13 / 20) ∧
      (∀ b, toks.foldl (cmStep p) cur = some b →
        ((b ∈ toks ∧ score b p ≥ 13 / 20) ∨ cur = some b) ∧
        (∀ x ∈ toks, score x p ≥ 13 / 20 → tokLE p x b) ∧
        (∀ c, cur = some c → tokLE p c b)) := by
  intro toks
  induction toks with
  | nil =>
    intro cur
    refine ⟨fun h => ⟨h, by simp⟩, fun b hb => ?_⟩
    simp only [List.foldl_nil] at hb
    refine ⟨Or.inr hb, by simp, fun c hcur => ?_⟩
    rw [hb] at hcur
    injection hcur with he
    subst he
    exact Or.inr ⟨rfl, Or.inr rfl⟩
  | cons t ts ih =>
    intro cur
    rw [List.foldl_cons]
    by_cases hcand : score t p ≥ 13 / 20
    · cases cur with
      | none =>
        rw [cmStep_none p t hcand]
        refine ⟨fun h => ?_, fun b hb => ?_⟩
        · exact absurd ((ih (some t)).1 h).1 (by simp)
        · obtain ⟨hA, hB, hC⟩ := (ih (some t)).2 b hb
          have htb : tokLE p t b := hC t rfl
          refine ⟨?_, ?_, fun c hcur => by simp at hcur⟩
          · rcases hA with ⟨hm, hcb⟩ | he
            · exact Or.inl ⟨List.mem_cons_of_mem _ hm, hcb⟩
            · injection he with he'
              subst he'
              exact Or.inl ⟨List.mem_cons_self _ _, hcand⟩
          · intro x hx hcx
            rcases List.mem_cons.mp hx with rfl | hx'
            · exact htb
            · exact hB x hx' hcx
      | some c0 =>
        rw [cmStep_some p c0 t hcand]
        by_cases hrep : score c0 p < score t p ∨ (score c0 p = score t p ∧ c0 < t)
        · rw [if_pos hrep]
          refine ⟨fun h => ?_, fun b hb => ?_⟩
          · exact absurd ((ih (some t)).1 h).1 (by simp)
          · obtain ⟨hA, hB, hC⟩ := (ih (some t)).2 b hb
            have htb : tokLE p t b := hC t rfl
            have hc0t : tokLE p c0 t := by
              rcases hrep with h | ⟨he, hlt⟩
              · exact Or.inl h
              · exact Or.inr ⟨he, Or.inl hlt⟩
            refine ⟨?_, ?_, fun c hcur => ?_⟩
            · rcases hA with ⟨hm, hcb⟩ | he
              · exact Or.inl ⟨List.mem_cons_of_mem _ hm, hcb⟩
              · injection he with he'
                subst he'
                exact Or.inl ⟨List.mem_cons_self _ _, hcand⟩
            · intro x hx hcx
              rcases List.mem_cons.mp hx with rfl | hx'
              · exact htb
              · exact hB x hx' hcx
            · injection hcur with he'
              subst he'
              exact tokLE_trans p _ _ _ hc0t htb
        · rw [if_neg hrep]
          have htc0 : tokLE p t c0 := tokLE_of_not_replace p t c0 hrep
          refine ⟨fun h => ?_, fun b hb => ?_⟩
          · exact absurd ((ih (some c0)).1 h).1 (by simp)
          · obtain ⟨hA, hB, hC⟩ := (ih (some c0)).2 b hb
            have hc0b : tokLE p c0 b := hC c0 rfl
            refine ⟨?_, ?_, fun c hcur => ?_⟩
            · rcases hA with ⟨hm, hcb⟩ | he
              · exact Or.inl ⟨List.mem_cons_of_mem _ hm, hcb⟩
              · exact Or.inr he
            · intro x hx hcx
              rcases List.mem_cons.mp hx with rfl | hx'
              · exact tokLE_trans p _ _ _ htc0 hc0b
              · exact hB x hx' hcx
            · injection hcur with he'
              subst he'
              exact hc0b
    · rw [cmStep_not p cur t hcand]
      refine ⟨fun h => ?_, fun b hb => ?_⟩
      · obtain ⟨h1, h2⟩ := (ih cur).1 h
        refine ⟨h1, fun x hx => ?_⟩
        rcases List.mem_cons.mp hx with rfl | hx'
        · exact hcand
        · exact h2 x hx'
      · obtain ⟨hA, hB, hC⟩ := (ih cur).2 b hb
        refine ⟨?_, ?_, hC⟩
        · rcases hA with ⟨hm, hcb⟩ | he
          · exact Or.inl ⟨List.mem_cons_of_mem _ hm, hcb⟩
          · exact Or.inr he
        · intro x hx hcx
          rcases List.mem_cons.mp hx with rfl | hx'
          · exact absurd hcx hcand
          · exact hB x hx' hcx

/-- Modelled from the spec's words (claim C2): "keep the single
highest-scoring token whose ratio is >= 0.65; ties broken by first
occurrence in scan order" — the running best is replaced only on a strictly
higher score, so the first of several equal-scoring tokens survives. -/
def specBestToken (p : List Char) (toks : List (List Char)) : Option (List Char) :=
  toks.foldl (fun cur t =>
    if 13 * scoreD t p ≤ 20 * scoreN t p then
      match cur with
      | none => some t
      | some c => if scoreN c p * scoreD t p < scoreN t p * scoreD c p then some t else some c
    else cur) none

/-- C2 counterexample: identifier "abc" against text "abd abe".  Both tokens
score 2/3 >= 0.65 and no verbatim match exists; the claim's first-occurrence
tie-break selects "abd", but the code (difflib's `max` over `(ratio, token)`
pairs) returns the lexicographically greatest tied token "abe". -/
theorem c2_counterexample :
    findCI ['a', 'b', 'c'] ['a', 'b', 'd', ' ', 'a', 'b', 'e'] = none ∧
    score ['a', 'b', 'd'] ['a', 'b', 'c'] = score ['a', 'b', 'e'] ['a', 'b', 'c'] ∧
    score ['a', 'b', 'd'] ['a', 'b', 'c'] ≥ 13 / 20 ∧
    specBestToken ['a', 'b', 'c'] (splitTok ['a', 'b', 'd', ' ', 'a', 'b', 'e']) =
      some ['a', 'b', 'd'] ∧
    (matchOutcome ['a', 'b', 'c'] ['a', 'b', 'd', ' ', 'a', 'b', 'e']).equivalent =
      some ['a', 'b', 'e'] ∧
    some (['a', 'b', 'd'] : List Char) ≠ some (['a', 'b', 'e'] : List Char) := by
  refine ⟨by decide, (score_eq_iff _ _ _).mpr (by decide),
    (score_cutoff_iff _ _).mpr (by decide), by decide, by decide, by decide⟩

/-- C2 amended: with no verbatim match and some token scoring at least 0.65,
the matcher returns "Includes or Missed Suffixes" with equivalent the
highest-scoring qualifying token, but ties between equal-scoring tokens are
broken by taking the lexicographically greatest token (difflib's `max` over
`(ratio, token)` pairs), not the first occurrence in scan order. -/
theorem c2_amended (p t : List Char)
    (hnv : findCI p t = none)
    (hex : ∃ tok ∈ splitTok t, score tok p ≥ 13 / 20) :
    (matchOutcome p t).status = "Includes or Missed Suffixes" ∧
    ∃ best ∈ splitTok t, (matchOutcome p t).equivalent = some best ∧
      score best p ≥ 13 / 20 ∧
      ∀ tok ∈ splitTok t, score tok p ≥ 13 / 20 →
        (score tok p < score best p ∨
          (score tok p = score best p ∧ (tok < best ∨ tok = best))) := by
  have hfold := closeMatch_fold p (splitTok t)
  rcases hcm : closeMatch p (splitTok t) with _ | b
  · unfold closeMatch at hcm
    obtain ⟨tok, htok, hcand⟩ := hex
    exact absurd hcand (((hfold none).1 hcm).2 tok htok)
  · unfold closeMatch at hcm
    obtain ⟨hA, hB, _⟩ := (hfold none).2 b hcm
    have hb : b ∈ splitTok t ∧ score b p ≥ 13 / 20 := by
      rcases hA with h | h
      · exact h
      · simp at h
    have hcm' : closeMatch p (splitTok t) = some b := hcm
    refine ⟨by simp [matchOutcome, hnv, hcm'], b, hb.1,
      by simp [matchOutcome, hnv, hcm'], hb.2, ?_⟩
    intro tok htok hcand
    exact hB tok htok hcand

/-- C2 witness: the amended theorem at identifier "abc", text "abd abe". -/
theorem c2_witness :
    findCI ['a', 'b', 'c'] ['a', 'b', 'd', ' ', 'a', 'b', 'e'] = none ∧
    (∃ tok ∈ splitTok ['a', 'b', 'd', ' ', 'a', 'b', 'e'],
      score tok ['a', 'b', 'c'] ≥ 13 / 20) ∧
    ((matchOutcome ['a', 'b', 'c'] ['a', 'b', 'd', ' ', 'a', 'b', 'e']).status =
        "Includes or Missed Suffixes" ∧
      ∃ best ∈ splitTok ['a', 'b', 'd', ' ', 'a', 'b', 'e'],
        (matchOutcome ['a', 'b', 'c'] ['a', 'b', 'd', ' ', 'a', 'b', 'e']).equivalent =
            some best ∧
          score best ['a', 'b', 'c'] ≥ 13 / 20 ∧
          ∀ tok ∈ splitTok ['a', 'b', 'd', ' ', 'a', 'b', 'e'],
            score tok ['a', 'b', 'c'] ≥ 13 / 20 →
              (score tok ['a', 'b', 'c'] < score best ['a', 'b', 'c'] ∨
                (score tok ['a', 'b', 'c'] = score best ['a', 'b', 'c'] ∧
                  (tok < best ∨ tok = best)))) :=
  ⟨by decide, ⟨['a', 'b', 'd'], by decide, (score_cutoff_iff _ _).mpr (by decide)⟩,
    c2_amended ['a', 'b', 'c'] ['a', 'b', 'd', ' ', 'a', 'b', 'e'] (by decide)
      ⟨['a', 'b', 'd'], by decide, (score_cutoff_iff _ _).mpr (by decide)⟩⟩

/-- Maximal runs of word characters of a text.  `fuel = |l|` always
suffices: every step consumes at least one character. -/
def wordTokensF : Nat → List Char → List (List Char)
  | 0, _ => []
  | fuel + 1, l =>
    match l with
    | [] => []
    | c :: cs =>
      if isWordChar c then
        (c :: cs.takeWhile isWordChar) :: wordTokensF fuel (cs.dropWhile isWordChar)
      else wordTokensF fuel cs

/-- Modelled from the spec's words (claim C7): the "whole tokens (delimited
by word boundaries)" of a text, read as its maximal word-character runs. -/
def wordTokens (l : List Char) : List (List Char) :=
  wordTokensF l.length l

/-- Does the identifier occur in `s` as a case-insensitive substring? -/
def ciSubstr (p s : List Char) : Bool :=
  (findCI p s).isSome

/-- Modelled from the spec's words (claim C7): the deduplicated set of whole
tokens that contain the identifier as a substring, case-insensitively. -/
def specSimilarTokens (p t : List Char) : List (List Char) :=
  dedupFO ((wordTokens t).filter fun tok => ciSubstr p tok)

/-- C7 counterexample: identifier " A-" (leading space, trailing hyphen)
against text "x A-b A-c".  The match is Exact, no whole word-boundary token
contains the identifier — so per the claim SIMILARS should stay unset — yet
the code populates SIMILARS (with "x A-b|A-c": regex matches span beyond
single tokens, and stripping even removes the identifier's own space from
the second one). -/
theorem c7_counterexample :
    (matchOutcome [' ', 'A', '-'] ['x', ' ', 'A', '-', 'b', ' ', 'A', '-', 'c']).status =
        "Exact" ∧
    specSimilarTokens [' ', 'A', '-'] ['x', ' ', 'A', '-', 'b', ' ', 'A', '-', 'c'] = [] ∧
    (matchOutcome [' ', 'A', '-'] ['x', ' ', 'A', '-', 'b', ' ', 'A', '-', 'c']).similars ≠
        none := by
  refine ⟨by decide, by decide, by decide⟩

lemma take_prefix_of_prefix {α : Type} (l m : List α) (n : Nat) (h : l <+: m)
    (hn : l.length ≤ n) : l <+: m.take n := by
  rw [List.prefix_iff_eq_take] at h ⊢
  rw [List.take_take, Nat.min_eq_left hn]
  exact h

lemma ciPref_take (p s : List Char) (n : Nat) (h : ciPref p s = true)
    (hn : p.length ≤ n) : ciPref p (s.take n) = true := by
  unfold ciPref at h ⊢
  rw [List.isPrefixOf_iff_prefix] at h ⊢
  have hmap : lower (s.take n) = (lower s).take n := by
    unfold lower
    rw [List.map_take]
  rw [hmap]
  refine take_prefix_of_prefix _ _ _ h ?_
  unfold lower
  rw [List.length_map]
  exact hn

lemma tryB_bounds (t : List Char) (e0 : Nat) :
    ∀ b e, tryB t e0 b = some e → e0 ≤ e := by
  intro b
  induction b with
  | zero =>
    intro e h
    unfold tryB at h
    by_cases hb : bAt t e0 = true
    · simp [hb] at h
      omega
    · simp [hb] at h
  | succ b ih =>
    intro e h
    unfold tryB at h
    by_cases hb : bAt t (e0 + b + 1) = true
    · simp [hb] at h
      omega
    · simp [hb] at h
      exact ih e h

lemma tryTail_spec (p t : List Char) (a e : Nat) (h : tryTail p t a = some e) :
    ciAt p t a = true ∧ a + p.length ≤ e := by
  unfold tryTail at h
  by_cases hc : ciAt p t a = true
  · rw [if_pos hc] at h
    exact ⟨hc, tryB_bounds t (a + p.length) (runAt t (a + p.length)) e h⟩
  · rw [if_neg hc] at h
    simp at h

lemma tryStars_spec (p t : List Char) (i : Nat) :
    ∀ s e, tryStars p t i s = some e →
      ∃ a, i ≤ a ∧ ciAt p t a = true ∧ a + p.length ≤ e := by
  intro s
  induction s with
  | zero =>
    intro e h
    unfold tryStars at h
    obtain ⟨hc, hb⟩ := tryTail_spec p t i e h
    exact ⟨i, Nat.le_refl _, hc, hb⟩
  | succ s ih =>
    intro e h
    unfold tryStars at h
    rcases htl : tryTail p t (i + s + 1) with _ | e'
    · rw [htl] at h
      obtain ⟨a, ha, hc, hb⟩ := ih e h
      exact ⟨a, ha, hc, hb⟩
    · rw [htl] at h
      injection h with he
      subst he
      obtain ⟨hc, hb⟩ := tryTail_spec p t (i + s + 1) e' htl
      exact ⟨i + s + 1, by omega, hc, hb⟩

lemma matchAt_spec (p t : List Char) (i e : Nat) (h : matchAt p t i = some e) :
    ∃ a, i ≤ a ∧ ciAt p t a = true ∧ a + p.length ≤ e := by
  unfold matchAt at h
  by_cases hb : bAt t i = true
  · rw [if_pos hb] at h
    exact tryStars_spec p t i _ e h
  · rw [if_neg hb] at h
    simp at h

lemma simScan_mem (p t : List Char) :
    ∀ fuel pos m, m ∈ simScan p t fuel pos →
      ∃ i e, matchAt p t i = some e ∧ m = (t.drop i).take (e - i) := by
  intro fuel
  induction fuel with
  | zero =>
    intro pos m h
    simp [simScan] at h
  | succ fuel ih =>
    intro pos m h
    unfold simScan at h
    by_cases hp : pos > t.length
    · rw [if_pos hp] at h
      simp at h
    · rw [if_neg hp] at h
      rcases hm : matchAt p t pos with _ | e
      · rw [hm] at h
        exact ih _ m h
      · rw [hm] at h
        rcases List.mem_cons.mp h with rfl | h'
        · exact ⟨pos, e, hm, rfl⟩
        · exact ih _ m h'

lemma simRaw_mem_spec (p t m : List Char) (h : m ∈ simRaw p t) :
    ciSubstr p m = true ∧ m <:+: t := by
  obtain ⟨i, e, hm, hme⟩ := simScan_mem p t (t.length + 2) 0 m h
  obtain ⟨a, hia, hci, hae⟩ := matchAt_spec p t i e hm
  subst hme
  constructor
  · unfold ciSubstr
    have h1 : ((t.drop i).take (e - i)).drop (a - i) = (t.drop a).take (e - a) := by
      rw [List.drop_take, List.drop_drop]
      congr 1
      · omega
      · congr 1
        omega
    have hocc : ciPref p (((t.drop i).take (e - i)).drop (a - i)) = true := by
      rw [h1]
      unfold ciAt at hci
      exact ciPref_take p (t.drop a) (e - a) hci (by omega)
    obtain ⟨j, hj, _, _⟩ := findCI_first p ((t.drop i).take (e - i)) ⟨a - i, hocc⟩
    simp [hj]
  · refine ⟨t.take i, (t.drop i).drop (e - i), ?_⟩
    rw [List.append_assoc, List.take_append_drop, List.take_append_drop]

lemma matchOutcome_not_exact_similars (p t : List Char)
    (h : (matchOutcome p t).status ≠ "Exact") : (matchOutcome p t).similars = none := by
  unfold matchOutcome at h ⊢
  rcases hf : findCI p t with _ | i
  · rcases hc : closeMatch p (splitTok t) with _ | b <;> simp [hf, hc]
  · simp [hf] at h

lemma matchOutcome_exact_similars (p t : List Char)
    (h : (matchOutcome p t).status = "Exact") :
    (matchOutcome p t).similars = similarsOf p t := by
  unfold matchOutcome at h ⊢
  rcases hf : findCI p t with _ | i
  · rcases hc : closeMatch p (splitTok t) with _ | b <;> simp [hf, hc] at h
  · simp [hf]

/-- C7 amended: SIMILARS is populated only in the Exact branch, and there it
is exactly the '|'-join of the deduplicated stripped raw matches of the
pattern word-chars* · identifier · word-chars* between word boundaries —
unset when that set is empty.  Every raw match is a contiguous substring of
the text containing the identifier case-insensitively; but a match may span
several whitespace-separated tokens (when the identifier contains non-word
characters), and after `str.strip()` a stored similar may no longer contain
an identifier that has leading/trailing whitespace — so the stored set is
not in general "the whole tokens containing the identifier". -/
theorem c7_amended :
    (∀ p t : List Char,
      (matchOutcome p t).status ≠ "Exact" → (matchOutcome p t).similars = none) ∧
    (∀ p t : List Char, (matchOutcome p t).status = "Exact" →
      ((dedupFO ((simRaw p t).map stripWS) = [] → (matchOutcome p t).similars = none) ∧
        (dedupFO ((simRaw p t).map stripWS) ≠ [] →
          (matchOutcome p t).similars =
            some (joinBar (dedupFO ((simRaw p t).map stripWS)))))) ∧
    (∀ p t m : List Char, m ∈ simRaw p t → ciSubstr p m = true ∧ m <:+: t) := by
  refine ⟨matchOutcome_not_exact_similars, ?_, simRaw_mem_spec⟩
  intro p t h
  rw [matchOutcome_exact_similars p t h]
  unfold similarsOf
  constructor
  · intro hnil
    simp [hnil]
  · intro hnil
    simp [hnil]

/-- C7 witness: the amended theorem applied at concrete inputs for each of
its three parts. -/
theorem c7_witness :
    ((matchOutcome ['z'] ['b']).status ≠ "Exact" ∧
      (matchOutcome ['z'] ['b']).similars = none) ∧
    ((matchOutcome ['a'] ['a']).status = "Exact" ∧
      (matchOutcome ['a'] ['a']).similars =
        some (joinBar (dedupFO ((simRaw ['a'] ['a']).map stripWS)))) ∧
    (['a'] ∈ simRaw ['a'] ['a'] ∧ ciSubstr ['a'] ['a'] = true ∧
      (['a'] : List Char) <:+: ['a']) :=
  ⟨⟨by decide, c7_amended.1 ['z'] ['b'] (by decide)⟩,
    ⟨by decide, (c7_amended.2.1 ['a'] ['a'] (by decide)).2 (by decide)⟩,
    ⟨by decide, (c7_amended.2.2 ['a'] ['a'] ['a'] (by decide)).1,
      (c7_amended.2.2 ['a'] ['a'] ['a'] (by decide)).2⟩⟩
